import Mathlib

/-!
# Verification of the `taskengine` task-dispatch library

Shallow embedding, in Lean 4, of the Go package `taskengine`
(files `taskstat.go`, `event.go`, `worker.go` and the engine source
`NewEngine` / `Execute` / `ExecuteEvents`), together with theorems that
settle the specification claims about it.

Modelling conventions:
* Go `int` is modelled as `Int` (no claim depends on 64-bit overflow).
* `TaskID` and `WorkerID` are Go strings, modelled as `String` with its
  lexicographic order (Go compares strings byte-wise; for the identifier
  strings involved the orders agree).
* A Go map is modelled as an association list (`List (key × value)`);
  indexing is first-match lookup, assignment replaces the first binding
  or appends a fresh one.  Reading a key that is absent dereferences a
  `nil` pointer in Go (the source carries explicit `WARN` comments that
  callers must ensure presence); the model returns the zero `TaskStat`
  in that case, a branch never exercised under the claims' hypotheses.
* Go interfaces (`Task`, `Result`) are modelled by a type parameter `τ`
  with an explicit `taskID : τ → TaskID` observer, and by a structure
  exposing the `Error()` observer.
* Functions that in Go mutate state through pointers are modelled as
  state-passing functions; purity statements of the spec are inherent
  to this embedding and are recorded in the doc comments.
-/

namespace Taskengine

/-- Go `type TaskID string` (worker.go). -/
abbrev TaskID := String

/-- Go `type WorkerID string` (worker.go). -/
abbrev WorkerID := String

/-- Go `taskStat` / exported `TaskStat` (taskstat.go): the four per-task
counters used by the scheduler. -/
structure TaskStat where
  todo : Int
  doing : Int
  done : Int
  success : Int
deriving DecidableEq

/-- The zero `TaskStat`, Go's `&taskStat{}`. -/
def TaskStat.zero : TaskStat := ⟨0, 0, 0, 0⟩

/-- Go `taskStat.completed` (taskstat.go): no worker has to do or is
doing the task. -/
def TaskStat.Completed (stat : TaskStat) : Bool :=
  stat.todo == 0 && stat.doing == 0

/-- The stat mutation performed by `taskStatMap.doing` (taskstat.go):
`stat.todo--; stat.doing++`. -/
def TaskStat.applyDoing (stat : TaskStat) : TaskStat :=
  { stat with todo := stat.todo - 1, doing := stat.doing + 1 }

/-- The stat mutation performed by `taskStatMap.done` (taskstat.go):
`stat.doing--; stat.done++; if success { stat.success++ }`. -/
def TaskStat.applyDone (stat : TaskStat) (success : Bool) : TaskStat :=
  { stat with
    doing := stat.doing - 1
    done := stat.done + 1
    success := stat.success + (if success then 1 else 0) }

/-! ## The `pick` scheduling policy (taskstat.go)

`pick` only reads the stat map (`WARN: it doesn't check task exists`),
so the map is modelled as a total function `TaskID → TaskStat`; a key
absent from the Go map would be a `nil`-pointer dereference, which the
claims exclude by requiring every candidate's `TaskID` to occur in the
map.  `pick` mutates neither the stat map nor the candidate list: in
this embedding both are immutable values, matching the source, which
performs reads only. -/

/-- The body of `pick`'s comparison ladder (taskstat.go, lines 98-119):
`true` iff candidate `(s, tid)` replaces the current best `(s0, tid0)`,
i.e. the `continue` branches return `false`. -/
def pickBetter (s : TaskStat) (tid : TaskID) (s0 : TaskStat) (tid0 : TaskID) : Bool :=
  if s.success > s0.success then false
  else if s.success == s0.success then
    if s.doing > s0.doing then false
    else if s.doing == s0.doing then
      if s.todo > s0.todo then false
      else if s.todo == s0.todo then
        -- Go: `if tid >= tid0 { continue }`, else update
        decide (tid < tid0)
      else true
    else true
  else true

/-- The `for j := 1; j < L; j++` loop of `pick`: scans the indexed tail,
carrying the current best index and task. -/
def pickAux {τ : Type} (statmap : TaskID → TaskStat) (taskID : τ → TaskID) :
    List (Nat × τ) → Nat × τ → Nat × τ
  | [], best => best
  | (j, t) :: rest, best =>
    if pickBetter (statmap (taskID t)) (taskID t)
        (statmap (taskID best.2)) (taskID best.2) then
      pickAux statmap taskID rest (j, t)
    else
      pickAux statmap taskID rest best

/-- Go `taskStatMap.pick` (taskstat.go): index of the chosen task, `-1`
for the empty list. -/
def pick {τ : Type} (statmap : TaskID → TaskStat) (taskID : τ → TaskID)
    (ts : List τ) : Int :=
  match ts with
  | [] => -1
  | t0 :: rest => Int.ofNat (pickAux statmap taskID (rest.enumFrom 1) (0, t0)).1

/-- The preference key ordering candidates: the lexicographic tuple
`(success, doing, todo, taskID)`, smaller preferred. -/
def pickKey {τ : Type} (statmap : TaskID → TaskStat) (taskID : τ → TaskID)
    (t : τ) : Int ×ₗ Int ×ₗ Int ×ₗ String :=
  toLex ((statmap (taskID t)).success,
    toLex ((statmap (taskID t)).doing,
      toLex ((statmap (taskID t)).todo, taskID t)))

/-- Concrete stat map used by witnesses: the spec's "done-with-success
on t1" scheduler example, `{t1:(0,0,1,1), t2:(2,0,0,0), t3:(3,0,0,0)}`
(fields `(todo, doing, done, success)`). -/
def pickWitnessStats : TaskID → TaskStat := fun tid =>
  if tid = "t1" then ⟨0, 0, 1, 1⟩
  else if tid = "t2" then ⟨2, 0, 0, 0⟩
  else ⟨3, 0, 0, 0⟩

/-! ## The task-status map (taskstat.go)

A Go `map[TaskID]*taskStat` is modelled as an association list; the
mutating methods `todo`, `doing`, `done` become state-passing
functions. -/

/-- First-match lookup in the association-list model of a Go map. -/
def alookup {β : Type} : List (String × β) → String → Option β
  | [], _ => none
  | (k, v) :: rest, key => if k = key then some v else alookup rest key

/-- Map assignment `m[key] = v` in the association-list model: replaces
the first binding of `key`, or appends a fresh one. -/
def aset {β : Type} : List (String × β) → String → β → List (String × β)
  | [], key, v => [(key, v)]
  | (k, w) :: rest, key, v =>
    if k = key then (k, v) :: rest else (k, w) :: aset rest key v

/-- Go `taskStatMap` (taskstat.go). -/
abbrev taskStatMap := List (TaskID × TaskStat)

/-- Reading `statmap[tid]` and dereferencing: Go yields a `nil` pointer
for an absent key, and `doing`/`done` dereference it unchecked (the
source `WARN`s that callers must ensure presence).  The model reads the
zero stat for an absent key; every claim guards against this branch. -/
def tsmGet (statmap : taskStatMap) (tid : TaskID) : TaskStat :=
  (alookup statmap tid).getD TaskStat.zero

/-- Go `taskStatMap.todo` (taskstat.go): create the zero entry if
missing, then `stat.todo++`. -/
def tsmTodo (statmap : taskStatMap) (tid : TaskID) : taskStatMap :=
  match alookup statmap tid with
  | none => aset statmap tid { TaskStat.zero with todo := 1 }
  | some stat => aset statmap tid { stat with todo := stat.todo + 1 }

/-- Go `taskStatMap.doing` (taskstat.go): `stat.todo--; stat.doing++`.
An absent key is a `nil`-pointer panic in Go; modelled as a no-op,
excluded by the guard `todo > 0` (an absent key reads `todo = 0`). -/
def tsmDoing (statmap : taskStatMap) (tid : TaskID) : taskStatMap :=
  match alookup statmap tid with
  | none => statmap
  | some stat => aset statmap tid stat.applyDoing

/-- Go `taskStatMap.done` (taskstat.go): `stat.doing--; stat.done++;
if success { stat.success++ }`.  Absent key as in `tsmDoing`. -/
def tsmDone (statmap : taskStatMap) (tid : TaskID) (success : Bool) : taskStatMap :=
  match alookup statmap tid with
  | none => statmap
  | some stat => aset statmap tid (stat.applyDone success)

/-- Go `taskStatMap.completed` (taskstat.go): every entry completed. -/
def tsmCompleted (statmap : taskStatMap) : Bool :=
  statmap.all fun p => p.2.Completed

/-- Go `newTaskStatusMap` (taskstat.go): walk every worker's task list
and call `todo` once per occurrence. -/
def newTaskStatusMap {τ : Type} (taskID : τ → TaskID)
    (widtasks : List (WorkerID × List τ)) : taskStatMap :=
  widtasks.foldl
    (fun statmap p => p.2.foldl (fun statmap t => tsmTodo statmap (taskID t)) statmap)
    []

/-- The number of `(worker, occurrence)` pairs whose task list mentions
`tid`: the initial `todo` of `tid`. -/
def countTasks {τ : Type} (taskID : τ → TaskID)
    (widtasks : List (WorkerID × List τ)) (tid : TaskID) : Nat :=
  (widtasks.map fun p => p.2.countP fun t => decide (taskID t = tid)).sum

/-- An update step on the stat map performed by the engine's main loop:
either `statMap.doing(tid)` (a dispatch) or `statMap.done(tid, success)`
(a completion). -/
inductive StatOp where
  | doing (tid : TaskID)
  | done (tid : TaskID) (success : Bool)

/-- Applying one update to the stat map. -/
def applyStatOp (statmap : taskStatMap) : StatOp → taskStatMap
  | .doing tid => tsmDoing statmap tid
  | .done tid success => tsmDone statmap tid success

/-- Applying a sequence of updates. -/
def runStatOps (statmap : taskStatMap) (ops : List StatOp) : taskStatMap :=
  ops.foldl applyStatOp statmap

/-- The guard under which the engine performs the updates: `doing(tid)`
only when the task's `todo > 0`, `done(tid, s)` only when its
`doing > 0`. -/
def validStatOps (statmap : taskStatMap) : List StatOp → Bool
  | [] => true
  | .doing tid :: rest =>
    decide (0 < (tsmGet statmap tid).todo) && validStatOps (tsmDoing statmap tid) rest
  | .done tid success :: rest =>
    decide (0 < (tsmGet statmap tid).doing) &&
      validStatOps (tsmDone statmap tid success) rest

/-- Concrete worker-to-tasks mapping for the C5 witness: two workers,
`t1` listed twice by `w1` and once by `w2`. -/
def c5widtasks : List (WorkerID × List String) := [("w1", ["t1", "t1"]), ("w2", ["t1"])]

/-- Concrete guarded update sequence for the C5 witness. -/
def c5ops : List StatOp := [.doing "t1", .done "t1" true]

/-! ## Events (event.go) -/

/-- A Go `error` value as far as the engine inspects it: the
cancellation sentinel `context.Canceled`, some other base error, or an
error wrapping another (the chain `errors.Is` unwraps). -/
inductive GoError where
  | canceled : GoError
  | base (msg : String) : GoError
  | wrap (inner : GoError) : GoError
deriving DecidableEq

/-- Go `errors.Is(err, context.Canceled)`: true iff the sentinel occurs
in the unwrap chain. -/
def errorsIsCanceled : GoError → Bool
  | .canceled => true
  | .base _ => false
  | .wrap inner => errorsIsCanceled inner

/-- Go `Result` interface (worker.go): exposes `Error() error`; `none`
models a `nil` error. -/
structure GoResult where
  error : Option GoError
deriving DecidableEq

/-- Go `Event` (event.go).  The `Result` field is `nil` for a Start
event, modelled by `Option`; `time.Time` is opaque to every claim and
modelled as `Int`; the `Task` interface is the type parameter `τ`. -/
structure Event (τ : Type) where
  result : Option GoResult
  workerID : WorkerID
  workerInst : Int
  task : τ
  stat : TaskStat
  timeStart : Int
  timeEnd : Int

/-- Go `type EventType int` (event.go). -/
abbrev EventType := Int

/-- `EventNil EventType = iota` (event.go). -/
def EventNil : EventType := 0

/-- `EventStart` (event.go). -/
def EventStart : EventType := 1

/-- `EventSuccess` (event.go). -/
def EventSuccess : EventType := 2

/-- `EventError` (event.go). -/
def EventError : EventType := 3

/-- `EventCanceled` (event.go). -/
def EventCanceled : EventType := 4

/-- Go `Event.Type` (event.go); a `nil` receiver is modelled by
`none`. -/
def eventType {τ : Type} : Option (Event τ) → EventType
  | none => EventNil
  | some e =>
    match e.result with
    | none => EventStart
    | some r =>
      match r.error with
      | none => EventSuccess
      | some err => if errorsIsCanceled err then EventCanceled else EventError

/-- Go `IsResult` (event.go): the event exists and has a non-`nil`
result. -/
def IsResult {τ : Type} (e : Option (Event τ)) : Bool :=
  match e with
  | none => false
  | some ev => ev.result.isSome

/-- Go `IsFirstSuccessOrLastResult` (event.go): first success result
(post-update `success = 1`), or last result with no success found
(`todo = 0 ∧ doing = 0 ∧ success = 0`).  The `IsResult` guard of the
source is the two outer `match` layers. -/
def IsFirstSuccessOrLastResult {τ : Type} (e : Option (Event τ)) : Bool :=
  match e with
  | none => false
  | some ev =>
    match ev.result with
    | none => false
    | some r =>
      match r.error with
      | none => ev.stat.success == 1
      | some _ => ev.stat.todo == 0 && ev.stat.doing == 0 && ev.stat.success == 0

/-- Modelled from the spec: `EventType.MarshalJSON` belongs to the
repository (its unit test expects `json.Marshal` of an `EventType` to
yield the quoted lowercase name), but the marshalling code itself is
not under `src`.  Per spec §6, the JSON representation of an
`EventType` is the lowercase type name, or `"invalid"` for an
out-of-range value, serialized as a JSON string. -/
def eventTypeMarshalJSON (t : EventType) : String :=
  "\"" ++
    (if t < EventNil ∨ t > EventCanceled then "invalid"
     else if t = EventNil then "nil"
     else if t = EventStart then "start"
     else if t = EventSuccess then "success"
     else if t = EventError then "error"
     else "canceled") ++ "\""

/-- Concrete event for the C6 witness: a result whose error wraps the
cancellation sentinel. -/
def c6event : Event String :=
  { result := some ⟨some (.wrap .canceled)⟩, workerID := "w1", workerInst := 0,
    task := "t1", stat := TaskStat.zero, timeStart := 0, timeEnd := 0 }

/-! ## The lifecycle of one task during a run (C2)

The main loop (engine source, `ExecuteEvents`) touches a given task's
stat exactly through `statMap.doing(tid)` at dispatch and
`statMap.done(tid, success)` at completion, with
`success := (o.res.Error() == nil)`; it emits the terminal event with
the stat snapshot read immediately after `statMap.done` — the claim's
`given` clause, which is line-for-line what the source does.  The
per-task projection of a run is therefore a sequence of these two
steps. -/

/-- One step of a single task's lifecycle: a dispatch
(`statMap.doing`), or a completion whose result carries error `err`
(`statMap.done` with `success = err.isNone`). -/
inductive TaskRunOp where
  | doing : TaskRunOp
  | done (err : Option GoError) : TaskRunOp
deriving DecidableEq

/-- The task's stat after a sequence of lifecycle steps. -/
def runTaskStat (s : TaskStat) : List TaskRunOp → TaskStat
  | [] => s
  | .doing :: rest => runTaskStat s.applyDoing rest
  | .done err :: rest => runTaskStat (s.applyDone err.isNone) rest

/-- The terminal event built by the main loop for a completion with
result error `err` and post-`done` stat snapshot `s` (engine source:
the end event carries `o.res` and `*statMap[tid]`; worker identity and
times do not enter any retention predicate and are fixed here). -/
def doneEvent (wid : WorkerID) (tid : TaskID) (err : Option GoError)
    (s : TaskStat) : Event TaskID :=
  { result := some ⟨err⟩, workerID := wid, workerInst := 0, task := tid,
    stat := s, timeStart := 0, timeEnd := 0 }

/-- The terminal events emitted for the task: one per completion,
carrying the completed result and the post-`done` stat snapshot
(engine source: the end event is built from `o.res` and
`*statMap[tid]` right after `statMap.done`). -/
def taskRunEvents (wid : WorkerID) (tid : TaskID) (s : TaskStat) :
    List TaskRunOp → List (Event TaskID)
  | [] => []
  | .doing :: rest => taskRunEvents wid tid s.applyDoing rest
  | .done err :: rest =>
    doneEvent wid tid err (s.applyDone err.isNone) ::
      taskRunEvents wid tid (s.applyDone err.isNone) rest

/-- A complete guarded run of one task: `doing` only with `todo > 0`,
`done` only with `doing > 0` (the main loop dispatches only tasks it
removed from a pending list and completes only dispatched attempts),
ending with the task completed (`todo = 0 ∧ doing = 0`, the
`statMap.completed()` exit condition of the loop). -/
def validCompletedRun (s : TaskStat) : List TaskRunOp → Bool
  | [] => s.todo == 0 && s.doing == 0
  | .doing :: rest => decide (0 < s.todo) && validCompletedRun s.applyDoing rest
  | .done err :: rest =>
    decide (0 < s.doing) && validCompletedRun (s.applyDone err.isNone) rest

/-- The retention predicate applied to each emitted event, as in
`Engine.Execute` for mode `FirstSuccessOrLastResult`. -/
def isFSLR (e : Event TaskID) : Bool := IsFirstSuccessOrLastResult (some e)

/-- Concrete run for the C2 witness: four attempts' worth of steps for
a task listed by two workers — a failed attempt, then a successful
one. -/
def c2ops : List TaskRunOp :=
  [.doing, .done (some (.base "boom")), .doing, .done none]

/-! ## Task-list removal (worker.go) -/

/-- Go `Tasks.remove` (worker.go): `t := (*ts)[i]; L1 := len(*ts)-1;
(*ts)[i] = (*ts)[L1]; (*ts) = (*ts)[:L1]; return t` — swap index `i`
with the last element and shrink by one.  Returns the removed task and
the shrunken list; `none` models the slice-bounds panic for an
out-of-range `i`, excluded by the claim's precondition. -/
def tasksRemove {τ : Type} (ts : List τ) (i : Nat) : Option (τ × List τ) :=
  if h : i < ts.length then
    some (ts.get ⟨i, h⟩,
      (ts.set i (ts.get ⟨ts.length - 1, by omega⟩)).take (ts.length - 1))
  else none

/-! ## Engine construction (engine source: `NewEngine`) -/

/-- Go `maxInstances = 100` (worker.go). -/
def maxInstances : Int := 100

/-- Go `Worker` (worker.go).  Only the `nil`-ness of the `Work`
function is ever inspected by `NewEngine`, so the function value is
modelled as an `Option` of an opaque payload. -/
structure Worker where
  workerID : WorkerID
  instances : Int
  work : Option Unit
deriving DecidableEq

/-- Go `Engine` (engine source): worker map, retained worker-to-tasks
mapping, and the original worker list. -/
structure Engine (τ : Type) where
  workers : List (WorkerID × Worker)
  widtasks : List (WorkerID × List τ)
  workersList : List Worker
deriving DecidableEq

/-- Go's `%q` formatting of a plain identifier string. -/
def goQuote (s : String) : String := "\"" ++ s ++ "\""

/-- The body of `NewEngine`'s first loop: the check applied to one
worker given the map of already-accepted workers — duplicate
`WorkerID`, `Instances <= 0 || Instances > maxInstances`, `nil` work
function, in that order; `none` when the worker passes. -/
def workerCheckError (workers : List (WorkerID × Worker)) (w : Worker) :
    Option String :=
  if (alookup workers w.workerID).isSome then
    some ("duplicate worker: WorkerID=" ++ goQuote w.workerID)
  else if w.instances ≤ 0 ∨ maxInstances < w.instances then
    some ("instances must be in 1.." ++ toString maxInstances ++
      " range: WorkerID=" ++ goQuote w.workerID)
  else if w.work.isNone then
    some ("work function cannot be nil: WorkerID=" ++ goQuote w.workerID)
  else none

/-- `NewEngine`'s first loop (engine source): validate the workers in
declaration order, stopping at the first failure, building the
`WorkerID → Worker` map. -/
def buildWorkerMap : List Worker → List (WorkerID × Worker) →
    Except String (List (WorkerID × Worker))
  | [], workers => .ok workers
  | w :: rest, workers =>
    match workerCheckError workers w with
    | some e => .error e
    | none => buildWorkerMap rest (aset workers w.workerID w)

/-- `NewEngine`'s second loop (engine source): skip zero-length task
lists, reject a non-empty list for an unknown `WorkerID`, keep the
rest.  The Go loop ranges over a map in unspecified order; the model
iterates the association list in order, one of the admissible orders
(which entry's error is reported when several are bad is the only
order-dependent observable). -/
def checkWidTasks {τ : Type} (workers : List (WorkerID × Worker)) :
    List (WorkerID × List τ) → Except String (List (WorkerID × List τ))
  | [] => .ok []
  | (wid, ts) :: rest =>
    if ts.length = 0 then checkWidTasks workers rest
    else if (alookup workers wid).isNone then
      .error ("tasks for undefined worker: WorkerID=" ++ goQuote wid)
    else
      match checkWidTasks workers rest with
      | .error e => .error e
      | .ok kept => .ok ((wid, ts) :: kept)

/-- Go `NewEngine` (engine source). -/
def NewEngine {τ : Type} (ws : List Worker) (wts : List (WorkerID × List τ)) :
    Except String (Engine τ) :=
  match buildWorkerMap ws [] with
  | .error e => .error e
  | .ok workers =>
    match checkWidTasks workers wts with
    | .error e => .error e
    | .ok widtasks => .ok ⟨workers, widtasks, ws⟩

/-- Concrete worker list for the C4 witness: a valid worker followed by
one with zero instances. -/
def c4workers : List Worker := [⟨"w1", 1, some ()⟩, ⟨"w2", 0, some ()⟩]

/-- Concrete worker-to-tasks mapping for the C4 witness: one retained
entry and one zero-length entry for an unknown worker. -/
def c4widtasks : List (WorkerID × List String) := [("w1", ["t1"]), ("w3", [])]

/-! ## Execute / ExecuteEvents preconditions (engine source) -/

/-- Go `Mode` (engine source). -/
inductive Mode where
  | allResults
  | successOrErrorResults
  | resultsUntilFirstSuccess
  | firstSuccessOrLastResult

/-- The entry of `Engine.ExecuteEvents` (engine source): a `nil`
receiver is rejected with `"nil engine"`, then a `nil` context with
`"nil context"`, before any channel is created; the concurrent
remainder is abstracted by `.ok ()` standing for the created event
channel. -/
def executeEventsChecked {τ : Type} (eng : Option (Engine τ))
    (ctx : Option Unit) : Except String Unit :=
  if eng.isNone then .error "nil engine"
  else if ctx.isNone then .error "nil context"
  else .ok ()

/-- Go `Engine.Execute` (engine source): calls `ExecuteEvents` first
and returns its error unchanged, creating no result channel. -/
def executeChecked {τ : Type} (eng : Option (Engine τ)) (ctx : Option Unit)
    (_mode : Mode) : Except String Unit :=
  match executeEventsChecked eng ctx with
  | .error e => .error e
  | .ok _ => .ok ()

/-! ## The main loop of `ExecuteEvents` (engine source), sequentialized

The loop is the single goroutine that reads the shared output channel;
everything it does — stat updates, per-task cancellation, event
emission, dispatch — happens in its program order, modelled as a list
of `LoopAction`s.  The sequence of job outputs it reads is the
parameter. -/

/-- Go `jobOutput` (engine source): a completion, or (`res = nil`) the
bootstrap "instance is idle" signal.  `inst` is Go's `instance` (a Lean
keyword). -/
structure JobOutput (τ : Type) where
  res : Option GoResult
  wid : WorkerID
  inst : Int
  task : τ
  timeStart : Int
  timeEnd : Int

/-- One observable action of the main loop, in program order.
`cancelTask tid` is the call of `taskcancel[tid]()`, which cancels the
per-`TaskID` context shared by every in-flight attempt of that task;
`dispatch` is the send of a `jobInput` to the worker's input channel;
`closeChan` is the close of that channel. -/
inductive LoopAction (τ : Type) where
  | statDone (tid : TaskID) (success : Bool)
  | cancelTask (tid : TaskID)
  | emit (e : Event τ)
  | statDoing (tid : TaskID)
  | dispatch (wid : WorkerID) (tid : TaskID)
  | closeChan (wid : WorkerID)

/-- The main loop's state (engine source): the cloned remaining
per-worker task lists, the stat map, and the per-worker input channels
still open. -/
structure LoopState (τ : Type) where
  widtasks : List (WorkerID × List τ)
  statMap : taskStatMap
  openChans : List WorkerID

/-- The terminal event the main loop builds for the completion `o`
with result `r` and post-update snapshot `stat` (engine source: the
end event). -/
def loopEndEvent {τ : Type} (o : JobOutput τ) (r : GoResult)
    (stat : TaskStat) : Event τ :=
  { result := some r, workerID := o.wid, workerInst := o.inst,
    task := o.task, stat := stat, timeStart := o.timeStart,
    timeEnd := o.timeEnd }

/-- The `if o.res != nil` block of the main loop (engine source):
classify success as `o.res.Error() == nil`, update the stat map with
`done`, cancel the task's context on success, and emit the terminal
event with the post-update snapshot `*statMap[tid]`. -/
def handleResult {τ : Type} (taskID : τ → TaskID) (s : LoopState τ)
    (o : JobOutput τ) : LoopState τ × List (LoopAction τ) :=
  match o.res with
  | none => (s, [])
  | some r =>
    let success := r.error.isNone
    let tid := taskID o.task
    let m1 := tsmDone s.statMap tid success
    ({ s with statMap := m1 },
      .statDone tid success ::
        ((if success then [.cancelTask tid] else []) ++
          [.emit (loopEndEvent o r (tsmGet m1 tid))]))

/-- The "select the next task of the worker" block (engine source):
`pick` on the worker's remaining list; if an index is returned, remove
it (swap-with-last) and store the shrunken list back. -/
def selectNext {τ : Type} (taskID : τ → TaskID) (s : LoopState τ)
    (wid : WorkerID) : Option τ × LoopState τ :=
  let ts := (alookup s.widtasks wid).getD []
  let n := pick (fun tid => tsmGet s.statMap tid) taskID ts
  if 0 ≤ n then
    match tasksRemove ts n.toNat with
    | some (t, ts') => (some t, { s with widtasks := aset s.widtasks wid ts' })
    | none => (none, s)
  else (none, s)

/-- One iteration of the main loop body for the output `o` (engine
source): handle the result, select the worker's next task, then either
dispatch it (after `statMap.doing`) or close the worker's input channel
(exactly once, guarded by membership in the open set). -/
def mainStep {τ : Type} (taskID : τ → TaskID) (s : LoopState τ)
    (o : JobOutput τ) : LoopState τ × List (LoopAction τ) :=
  let p := handleResult taskID s o
  match selectNext taskID p.1 o.wid with
  | (none, s2) =>
    if o.wid ∈ s2.openChans then
      ({ s2 with openChans := s2.openChans.erase o.wid },
        p.2 ++ [.closeChan o.wid])
    else (s2, p.2)
  | (some t, s2) =>
    ({ s2 with statMap := tsmDoing s2.statMap (taskID t) },
      p.2 ++ [.statDoing (taskID t), .dispatch o.wid (taskID t)])

/-- The main loop (engine source): `for !statMap.completed()` — read
the next output and run the body; the read outputs are supplied as a
list. -/
def mainLoopRun {τ : Type} (taskID : τ → TaskID) (s : LoopState τ) :
    List (JobOutput τ) → List (LoopAction τ)
  | [] => []
  | o :: rest =>
    if tsmCompleted s.statMap then []
    else
      (mainStep taskID s o).2 ++ mainLoopRun taskID (mainStep taskID s o).1 rest

/-- Concrete loop state for the C3 witness: one worker `w1` with no
remaining tasks, one in-flight attempt of `t1`. -/
def c3state : LoopState String :=
  { widtasks := [("w1", [])], statMap := [("t1", ⟨0, 1, 0, 0⟩)],
    openChans := ["w1"] }

/-- Concrete successful completion of `t1` by `w1` for the C3
witness. -/
def c3output : JobOutput String :=
  { res := some ⟨none⟩, wid := "w1", inst := 0, task := "t1",
    timeStart := 0, timeEnd := 0 }

lemma pickBetter_eq_true_iff {τ : Type} (statmap : TaskID → TaskStat)
    (taskID : τ → TaskID) (t t0 : τ) :
    pickBetter (statmap (taskID t)) (taskID t)
        (statmap (taskID t0)) (taskID t0) = true ↔
      pickKey statmap taskID t < pickKey statmap taskID t0 := by
  simp only [pickBetter, pickKey, Prod.Lex.lt_iff]
  split_ifs with h1 h2 h3 h4 h5 h6 <;>
    simp_all <;> omega

lemma pickAux_origin {τ : Type} (statmap : TaskID → TaskStat)
    (taskID : τ → TaskID) (l : List (Nat × τ)) (best : Nat × τ) :
    pickAux statmap taskID l best = best ∨ pickAux statmap taskID l best ∈ l := by
  induction l generalizing best with
  | nil => simp [pickAux]
  | cons p rest ih =>
    obtain ⟨j, t⟩ := p
    simp only [pickAux]
    split
    · rcases ih (j, t) with h | h
      · right; simp [h]
      · right; simp [h]
    · rcases ih best with h | h
      · left; exact h
      · right; simp [h]

lemma pickAux_min {τ : Type} (statmap : TaskID → TaskStat)
    (taskID : τ → TaskID) (l : List (Nat × τ)) (best : Nat × τ) :
    pickKey statmap taskID (pickAux statmap taskID l best).2 ≤
        pickKey statmap taskID best.2 ∧
      ∀ p ∈ l, pickKey statmap taskID (pickAux statmap taskID l best).2 ≤
        pickKey statmap taskID p.2 := by
  induction l generalizing best with
  | nil => simp [pickAux]
  | cons p rest ih =>
    obtain ⟨j, t⟩ := p
    simp only [pickAux]
    split
    · rename_i hb
      rw [pickBetter_eq_true_iff] at hb
      obtain ⟨ih1, ih2⟩ := ih (j, t)
      refine ⟨le_of_lt (lt_of_le_of_lt ih1 hb), ?_⟩
      intro q hq
      rcases List.mem_cons.mp hq with h | h
      · subst h; exact ih1
      · exact ih2 q h
    · rename_i hb
      rw [Bool.not_eq_true, ← Bool.not_eq_true, pickBetter_eq_true_iff] at hb
      have hb' : pickKey statmap taskID best.2 ≤ pickKey statmap taskID t :=
        not_lt.mp (by simpa using hb)
      obtain ⟨ih1, ih2⟩ := ih best
      refine ⟨ih1, ?_⟩
      intro q hq
      rcases List.mem_cons.mp hq with h | h
      · subst h; exact le_trans ih1 hb'
      · exact ih2 q h

/-- Range of `pick` on a non-empty list, together with the identification
of the element it designates. -/
lemma pick_range {τ : Type} (statmap : TaskID → TaskStat) (taskID : τ → TaskID)
    (t0 : τ) (rest : List τ) :
    0 ≤ pick statmap taskID (t0 :: rest) ∧
      (pick statmap taskID (t0 :: rest)).toNat < (t0 :: rest).length := by
  rcases ho : pickAux statmap taskID (rest.enumFrom 1) (0, t0) with ⟨j, t⟩
  refine ⟨by simp [pick, ho], ?_⟩
  rcases pickAux_origin statmap taskID (rest.enumFrom 1) (0, t0) with h0 | hm
  · rw [ho] at h0
    cases h0
    simp [pick, ho]
  · rw [ho] at hm
    obtain ⟨h1, h2, h3⟩ := List.mem_enumFrom hm
    simp only [pick, ho, List.length_cons]
    have hidx : (Int.ofNat j).toNat = j := rfl
    rw [hidx]
    omega

/-- The element of `ts` at the picked index is the second component of
the `pickAux` result. -/
lemma pick_get {τ : Type} (statmap : TaskID → TaskStat) (taskID : τ → TaskID)
    (t0 : τ) (rest : List τ)
    (h : (pick statmap taskID (t0 :: rest)).toNat < (t0 :: rest).length) :
    (t0 :: rest).get ⟨(pick statmap taskID (t0 :: rest)).toNat, h⟩ =
      (pickAux statmap taskID (rest.enumFrom 1) (0, t0)).2 := by
  rcases ho : pickAux statmap taskID (rest.enumFrom 1) (0, t0) with ⟨j, t⟩
  rcases pickAux_origin statmap taskID (rest.enumFrom 1) (0, t0) with h0 | hm
  · rw [ho] at h0
    cases h0
    simp [pick, ho]
  · rw [ho] at hm
    obtain ⟨h1, h2, h3⟩ := List.mem_enumFrom hm
    obtain ⟨k, rfl⟩ : ∃ k, j = k + 1 := ⟨j - 1, by omega⟩
    simp only [Nat.add_sub_cancel] at h3
    simp only [pick, ho, List.get_eq_getElem]
    have hidx : (Int.ofNat (k + 1)).toNat = k + 1 := rfl
    simp only [hidx, List.getElem_cons_succ]
    exact h3.symm

/-- Every index `k+1` of the tail appears in the enumerated tail scanned
by `pick`'s loop. -/
lemma mem_enumFrom_of_get {τ : Type} (rest : List τ) (k : Nat) (hk : k < rest.length) :
    (k + 1, rest.get ⟨k, hk⟩) ∈ rest.enumFrom 1 := by
  apply List.get?_mem (n := k)
  rw [List.get?_enumFrom]
  rw [List.get?_eq_get hk]
  simp [Nat.add_comm]

/-- Extracting the `taskID` component of a `pickKey`. -/
lemma pickKey_taskID {τ : Type} (statmap : TaskID → TaskStat) (taskID : τ → TaskID)
    (t t' : τ) (h : pickKey statmap taskID t = pickKey statmap taskID t') :
    taskID t = taskID t' := by
  have := congrArg
    (fun x : Int ×ₗ Int ×ₗ Int ×ₗ String => (ofLex (ofLex (ofLex x).2).2).2) h
  simpa [pickKey] using this

/-- **C1.** For every stat map and non-empty candidate list (whose
`TaskID`s all occur in the map — the map is modelled as total, so the
precondition is inherent), `pick` returns an in-range index whose
candidate is minimal under the lexicographic order on
`(success, doing, todo, taskID)`, smaller preferred; when the
candidates' `TaskID`s are distinct, the picked candidate is the unique
minimum, so the lowest `taskID` breaks ties among candidates whose
three counters are equal.  `pick` mutates neither the stat map nor the
list: the source only reads them, and the embedding is pure. -/
theorem pick_lexicographic_minimum {τ : Type} (statmap : TaskID → TaskStat)
    (taskID : τ → TaskID) (ts : List τ) (hne : ts ≠ []) :
    0 ≤ pick statmap taskID ts ∧
    ∃ hlt : (pick statmap taskID ts).toNat < ts.length,
      (∀ j (hj : j < ts.length),
        pickKey statmap taskID (ts.get ⟨(pick statmap taskID ts).toNat, hlt⟩) ≤
          pickKey statmap taskID (ts.get ⟨j, hj⟩)) ∧
      ((ts.map taskID).Nodup → ∀ j (hj : j < ts.length),
        j ≠ (pick statmap taskID ts).toNat →
          pickKey statmap taskID (ts.get ⟨(pick statmap taskID ts).toNat, hlt⟩) <
            pickKey statmap taskID (ts.get ⟨j, hj⟩)) := by
  match ts with
  | t0 :: rest =>
  obtain ⟨hpos, hlt⟩ := pick_range statmap taskID t0 rest
  have hget := pick_get statmap taskID t0 rest hlt
  have hmin : ∀ j (hj : j < (t0 :: rest).length),
      pickKey statmap taskID
          ((t0 :: rest).get ⟨(pick statmap taskID (t0 :: rest)).toNat, hlt⟩) ≤
        pickKey statmap taskID ((t0 :: rest).get ⟨j, hj⟩) := by
    intro j hj
    rw [hget]
    obtain ⟨hbest, hall⟩ := pickAux_min statmap taskID (rest.enumFrom 1) (0, t0)
    match j with
    | 0 => exact hbest
    | k + 1 =>
      have hk : k < rest.length := by
        simp only [List.length_cons] at hj; omega
      have hmem := mem_enumFrom_of_get rest k hk
      have := hall (k + 1, rest.get ⟨k, hk⟩) hmem
      simpa [List.get_eq_getElem, List.getElem_cons_succ] using this
  refine ⟨hpos, hlt, hmin, ?_⟩
  intro hnd j hj hjne
  refine lt_of_le_of_ne (hmin j hj) ?_
  intro heq
  have htid := pickKey_taskID statmap taskID _ _ heq
  have hi' : (pick statmap taskID (t0 :: rest)).toNat <
      ((t0 :: rest).map taskID).length := by simpa using hlt
  have hj' : j < ((t0 :: rest).map taskID).length := by simpa using hj
  have hgets : ((t0 :: rest).map taskID).get ⟨_, hi'⟩ =
      ((t0 :: rest).map taskID).get ⟨j, hj'⟩ := by
    simp only [List.get_eq_getElem, List.getElem_map]
    exact htid
  have := (List.Nodup.get_inj_iff hnd).mp hgets
  exact hjne (congrArg Fin.val this).symm

/-- **C10.** `pick` returns `-1` exactly on the empty list, and an index
in `[0, length)` on every non-empty list, whatever the stats say: a
candidate whose stat already records `success > 0` or `todo = 0` is
still eligible (in particular, for a singleton list it is returned), so
the dispatcher never skips a worker's remaining task merely because the
task was already solved by another worker. -/
theorem pick_in_range_iff {τ : Type} (statmap : TaskID → TaskStat)
    (taskID : τ → TaskID) (ts : List τ) :
    (pick statmap taskID ts = -1 ↔ ts = []) ∧
    (ts ≠ [] → 0 ≤ pick statmap taskID ts ∧
      (pick statmap taskID ts).toNat < ts.length) := by
  cases ts with
  | nil => simp [pick]
  | cons t0 rest =>
    have h := pick_range statmap taskID t0 rest
    have h1 := h.1
    refine ⟨⟨fun hc => (by omega : False).elim, fun hc => by simp at hc⟩, fun _ => h⟩

/-- Witness for C1 at a concrete input: the stat map of the spec's
fourth scheduler example, candidates `[t1, t2, t3]`; `pick` must return
index 1 (`t2` has zero successes and the lowest `todo`). -/
theorem pick_lexicographic_minimum_witness :
    (["t1", "t2", "t3"] : List String) ≠ [] ∧
    (0 ≤ pick pickWitnessStats id ["t1", "t2", "t3"] ∧
    ∃ hlt : (pick pickWitnessStats id ["t1", "t2", "t3"]).toNat <
        (["t1", "t2", "t3"] : List String).length,
      (∀ j (hj : j < (["t1", "t2", "t3"] : List String).length),
        pickKey pickWitnessStats id
            ((["t1", "t2", "t3"] : List String).get
              ⟨(pick pickWitnessStats id ["t1", "t2", "t3"]).toNat, hlt⟩) ≤
          pickKey pickWitnessStats id
            ((["t1", "t2", "t3"] : List String).get ⟨j, hj⟩)) ∧
      (((["t1", "t2", "t3"] : List String).map id).Nodup →
        ∀ j (hj : j < (["t1", "t2", "t3"] : List String).length),
        j ≠ (pick pickWitnessStats id ["t1", "t2", "t3"]).toNat →
          pickKey pickWitnessStats id
              ((["t1", "t2", "t3"] : List String).get
                ⟨(pick pickWitnessStats id ["t1", "t2", "t3"]).toNat, hlt⟩) <
            pickKey pickWitnessStats id
              ((["t1", "t2", "t3"] : List String).get ⟨j, hj⟩))) :=
  ⟨by decide, pick_lexicographic_minimum pickWitnessStats id ["t1", "t2", "t3"] (by decide)⟩

/-- Witness for C10 at a concrete input: a singleton candidate list
whose sole task is already solved (`success = 1`, `todo = 0`) is still
picked. -/
theorem pick_in_range_iff_witness :
    (["t1"] : List String) ≠ [] ∧
    (0 ≤ pick pickWitnessStats id ["t1"] ∧
      (pick pickWitnessStats id ["t1"]).toNat < (["t1"] : List String).length) :=
  ⟨by decide, (pick_in_range_iff pickWitnessStats id ["t1"]).2 (by decide)⟩

/-! ## Association-list map lemmas -/

lemma alookup_aset_self {β : Type} (m : List (String × β)) (k : String) (v : β) :
    alookup (aset m k v) k = some v := by
  induction m with
  | nil => simp [aset, alookup]
  | cons p rest ih =>
    obtain ⟨k', w⟩ := p
    by_cases h : k' = k
    · simp [aset, alookup, h]
    · simp [aset, alookup, h, ih]

lemma alookup_aset_ne {β : Type} (m : List (String × β)) (k k' : String) (v : β)
    (hne : k' ≠ k) : alookup (aset m k v) k' = alookup m k' := by
  induction m with
  | nil => simp [aset, alookup, Ne.symm hne]
  | cons p rest ih =>
    obtain ⟨k'', w⟩ := p
    by_cases h : k'' = k
    · subst h
      simp [aset, alookup, Ne.symm hne]
    · by_cases h' : k'' = k'
      · subst h'
        simp [aset, alookup, h]
      · simp [aset, alookup, h, h', ih]

lemma tsmGet_eq_of_some {m : taskStatMap} {tid : TaskID} {stat : TaskStat}
    (h : alookup m tid = some stat) : tsmGet m tid = stat := by
  simp [tsmGet, h]

lemma tsmGet_tsmTodo (m : taskStatMap) (tid tid' : TaskID) :
    tsmGet (tsmTodo m tid) tid' =
      if tid' = tid then
        { tsmGet m tid' with todo := (tsmGet m tid').todo + 1 }
      else tsmGet m tid' := by
  unfold tsmTodo
  cases halookup : alookup m tid with
  | none =>
    by_cases h : tid' = tid
    · subst h
      simp [tsmGet, alookup_aset_self, halookup, TaskStat.zero]
    · simp [tsmGet, alookup_aset_ne _ _ _ _ h, h]
  | some stat =>
    by_cases h : tid' = tid
    · subst h
      simp [tsmGet, alookup_aset_self, halookup]
    · simp [tsmGet, alookup_aset_ne _ _ _ _ h, h]

lemma tsmGet_tsmDoing_some {m : taskStatMap} {tid : TaskID} {stat : TaskStat}
    (h : alookup m tid = some stat) (tid' : TaskID) :
    tsmGet (tsmDoing m tid) tid' =
      if tid' = tid then stat.applyDoing else tsmGet m tid' := by
  unfold tsmDoing
  rw [h]
  by_cases h' : tid' = tid
  · subst h'
    simp [tsmGet, alookup_aset_self]
  · simp [tsmGet, alookup_aset_ne _ _ _ _ h', h']

lemma tsmGet_tsmDone_some {m : taskStatMap} {tid : TaskID} {stat : TaskStat}
    (h : alookup m tid = some stat) (success : Bool) (tid' : TaskID) :
    tsmGet (tsmDone m tid success) tid' =
      if tid' = tid then stat.applyDone success else tsmGet m tid' := by
  unfold tsmDone
  rw [h]
  by_cases h' : tid' = tid
  · subst h'
    simp [tsmGet, alookup_aset_self]
  · simp [tsmGet, alookup_aset_ne _ _ _ _ h', h']

/-- Folding `todo` over one task list adds the number of occurrences of
`tid` to its `todo` counter and changes nothing else. -/
lemma tsmGet_foldl_tsmTodo {τ : Type} (taskID : τ → TaskID) (l : List τ)
    (m : taskStatMap) (tid : TaskID) :
    tsmGet (l.foldl (fun mm t => tsmTodo mm (taskID t)) m) tid =
      { tsmGet m tid with
        todo := (tsmGet m tid).todo + (l.countP fun t => decide (taskID t = tid)) } := by
  induction l generalizing m with
  | nil => simp
  | cons t l' ih =>
    rw [List.foldl_cons, ih, tsmGet_tsmTodo]
    by_cases h : tid = taskID t
    · rw [if_pos h]
      rcases hs : tsmGet m tid with ⟨a, b, c, d⟩
      simp [hs, List.countP_cons, h.symm, TaskStat.mk.injEq]
      omega
    · rw [if_neg h]
      have h' : ¬ (taskID t = tid) := fun hc => h hc.symm
      simp [List.countP_cons, h']

/-- The initial stat map: `todo` is the number of `(worker, occurrence)`
pairs listing the task, the other counters are zero. -/
lemma tsmGet_newTaskStatusMap {τ : Type} (taskID : τ → TaskID)
    (widtasks : List (WorkerID × List τ)) (tid : TaskID) :
    tsmGet (newTaskStatusMap taskID widtasks) tid =
      ⟨(countTasks taskID widtasks tid : Int), 0, 0, 0⟩ := by
  suffices h : ∀ (wts : List (WorkerID × List τ)) (m : taskStatMap),
      tsmGet (wts.foldl
        (fun statmap p => p.2.foldl (fun mm t => tsmTodo mm (taskID t)) statmap) m) tid =
      { tsmGet m tid with
        todo := (tsmGet m tid).todo + (countTasks taskID wts tid : Int) } by
    rw [newTaskStatusMap, h]
    simp [tsmGet, alookup, TaskStat.zero]
  intro wts
  induction wts with
  | nil => intro m; simp [countTasks]
  | cons p wts' ih =>
    intro m
    rw [List.foldl_cons, ih, tsmGet_foldl_tsmTodo]
    rcases hs : tsmGet m tid with ⟨a, b, c, d⟩
    simp [hs, countTasks, TaskStat.mk.injEq]
    ring

/-- The per-`TaskID` counter invariant is preserved by every guarded
sequence of `doing`/`done` updates. -/
lemma runStatOps_inv (init : TaskID → Int) :
    ∀ (ops : List StatOp) (m : taskStatMap),
      (∀ tid,
        (tsmGet m tid).todo + (tsmGet m tid).doing + (tsmGet m tid).done = init tid ∧
        (tsmGet m tid).success ≤ (tsmGet m tid).done ∧
        0 ≤ (tsmGet m tid).todo ∧ 0 ≤ (tsmGet m tid).doing ∧
        0 ≤ (tsmGet m tid).done ∧ 0 ≤ (tsmGet m tid).success) →
      validStatOps m ops = true →
      ∀ tid,
        (tsmGet (runStatOps m ops) tid).todo + (tsmGet (runStatOps m ops) tid).doing +
            (tsmGet (runStatOps m ops) tid).done = init tid ∧
        (tsmGet (runStatOps m ops) tid).success ≤ (tsmGet (runStatOps m ops) tid).done ∧
        0 ≤ (tsmGet (runStatOps m ops) tid).todo ∧
        0 ≤ (tsmGet (runStatOps m ops) tid).doing ∧
        0 ≤ (tsmGet (runStatOps m ops) tid).done ∧
        0 ≤ (tsmGet (runStatOps m ops) tid).success := by
  intro ops
  induction ops with
  | nil => intro m hinv _ tid; exact hinv tid
  | cons op rest ih =>
    intro m hinv hvalid tid
    cases op with
    | doing tid0 =>
      simp only [validStatOps, Bool.and_eq_true, decide_eq_true_eq] at hvalid
      obtain ⟨hguard, hvalid'⟩ := hvalid
      cases halookup : alookup m tid0 with
      | none =>
        exfalso
        have : tsmGet m tid0 = TaskStat.zero := by simp [tsmGet, halookup]
        rw [this] at hguard
        simp [TaskStat.zero] at hguard
      | some stat =>
        have hstat : tsmGet m tid0 = stat := tsmGet_eq_of_some halookup
        have hstep : runStatOps m (.doing tid0 :: rest) =
            runStatOps (tsmDoing m tid0) rest := by
          simp [runStatOps, applyStatOp]
        rw [hstep]
        refine ih (tsmDoing m tid0) ?_ hvalid' tid
        intro tid'
        rw [tsmGet_tsmDoing_some halookup]
        by_cases h : tid' = tid0
        · have hold := hinv tid0
          rw [hstat] at hold
          rw [hstat] at hguard
          simp only [if_pos h, TaskStat.applyDoing]
          subst h
          rcases stat with ⟨a, b, c, d⟩
          simp_all
          omega
        · simp only [if_neg h]
          exact hinv tid'
    | done tid0 success =>
      simp only [validStatOps, Bool.and_eq_true, decide_eq_true_eq] at hvalid
      obtain ⟨hguard, hvalid'⟩ := hvalid
      cases halookup : alookup m tid0 with
      | none =>
        exfalso
        have : tsmGet m tid0 = TaskStat.zero := by simp [tsmGet, halookup]
        rw [this] at hguard
        simp [TaskStat.zero] at hguard
      | some stat =>
        have hstat : tsmGet m tid0 = stat := tsmGet_eq_of_some halookup
        have hstep : runStatOps m (.done tid0 success :: rest) =
            runStatOps (tsmDone m tid0 success) rest := by
          simp [runStatOps, applyStatOp]
        rw [hstep]
        refine ih (tsmDone m tid0 success) ?_ hvalid' tid
        intro tid'
        rw [tsmGet_tsmDone_some halookup]
        by_cases h : tid' = tid0
        · have hold := hinv tid0
          rw [hstat] at hold
          rw [hstat] at hguard
          simp only [if_pos h, TaskStat.applyDone]
          subst h
          rcases stat with ⟨a, b, c, d⟩
          cases success <;> simp_all <;> omega
        · simp only [if_neg h]
          exact hinv tid'

/-- **C5.** Starting from `newTaskStatusMap(wts)` — where each task's
`todo` equals the number of `(worker, occurrence)` pairs listing it and
the other counters are zero — every guarded sequence of `doing` and
`done` updates preserves, for every `TaskID`:
`todo + doing + done = initial todo`, `success ≤ done`, and
non-negativity of all four counters. -/
theorem taskStatMap_invariants {τ : Type} (taskID : τ → TaskID)
    (widtasks : List (WorkerID × List τ)) (ops : List StatOp) (tid : TaskID)
    (hvalid : validStatOps (newTaskStatusMap taskID widtasks) ops = true) :
    (tsmGet (runStatOps (newTaskStatusMap taskID widtasks) ops) tid).todo +
        (tsmGet (runStatOps (newTaskStatusMap taskID widtasks) ops) tid).doing +
        (tsmGet (runStatOps (newTaskStatusMap taskID widtasks) ops) tid).done =
        (countTasks taskID widtasks tid : Int) ∧
      (tsmGet (runStatOps (newTaskStatusMap taskID widtasks) ops) tid).success ≤
        (tsmGet (runStatOps (newTaskStatusMap taskID widtasks) ops) tid).done ∧
      0 ≤ (tsmGet (runStatOps (newTaskStatusMap taskID widtasks) ops) tid).todo ∧
      0 ≤ (tsmGet (runStatOps (newTaskStatusMap taskID widtasks) ops) tid).doing ∧
      0 ≤ (tsmGet (runStatOps (newTaskStatusMap taskID widtasks) ops) tid).done ∧
      0 ≤ (tsmGet (runStatOps (newTaskStatusMap taskID widtasks) ops) tid).success := by
  refine runStatOps_inv (fun t => (countTasks taskID widtasks t : Int)) ops
    (newTaskStatusMap taskID widtasks) ?_ hvalid tid
  intro t
  rw [tsmGet_newTaskStatusMap]
  simp

/-- Witness for C5: two workers listing `t1` (one twice); dispatch one
attempt and complete it successfully. -/
theorem taskStatMap_invariants_witness :
    validStatOps (newTaskStatusMap id c5widtasks) c5ops = true ∧
      ((tsmGet (runStatOps (newTaskStatusMap id c5widtasks) c5ops) "t1").todo +
        (tsmGet (runStatOps (newTaskStatusMap id c5widtasks) c5ops) "t1").doing +
        (tsmGet (runStatOps (newTaskStatusMap id c5widtasks) c5ops) "t1").done =
        (countTasks id c5widtasks "t1" : Int) ∧
      (tsmGet (runStatOps (newTaskStatusMap id c5widtasks) c5ops) "t1").success ≤
        (tsmGet (runStatOps (newTaskStatusMap id c5widtasks) c5ops) "t1").done ∧
      0 ≤ (tsmGet (runStatOps (newTaskStatusMap id c5widtasks) c5ops) "t1").todo ∧
      0 ≤ (tsmGet (runStatOps (newTaskStatusMap id c5widtasks) c5ops) "t1").doing ∧
      0 ≤ (tsmGet (runStatOps (newTaskStatusMap id c5widtasks) c5ops) "t1").done ∧
      0 ≤ (tsmGet (runStatOps (newTaskStatusMap id c5widtasks) c5ops) "t1").success) :=
  ⟨by decide, taskStatMap_invariants id c5widtasks c5ops "t1" (by decide)⟩

/-! ## Event classification (C6, C7) -/

/-- **C6.** `Event.Type` returns `EventNil` for a `nil` receiver,
`EventStart` when the result is `nil`, `EventSuccess` when the result's
error is `nil`, `EventCanceled` when the error is (or wraps) the
cancellation sentinel `context.Canceled`, and `EventError` otherwise. -/
theorem eventType_characterization {τ : Type} (e : Option (Event τ)) :
    (e = none → eventType e = EventNil) ∧
    (∀ ev, e = some ev →
      (ev.result = none → eventType e = EventStart) ∧
      (∀ r, ev.result = some r →
        (r.error = none → eventType e = EventSuccess) ∧
        (∀ err, r.error = some err →
          (errorsIsCanceled err = true → eventType e = EventCanceled) ∧
          (errorsIsCanceled err = false → eventType e = EventError)))) := by
  refine ⟨fun he => by simp [he, eventType], ?_⟩
  intro ev he
  subst he
  refine ⟨fun hr => by simp [eventType, hr], ?_⟩
  intro r hr
  refine ⟨fun herr => by simp [eventType, hr, herr], ?_⟩
  intro err herr
  constructor
  · intro hc
    simp [eventType, hr, herr, hc]
  · intro hc
    simp [eventType, hr, herr, hc]

/-- Witness for C6: an event whose result error wraps the cancellation
sentinel is classified `EventCanceled` (the sentinel is found through
the unwrap chain). -/
theorem eventType_characterization_witness :
    c6event.result = some ⟨some (.wrap .canceled)⟩ ∧
    errorsIsCanceled (.wrap .canceled) = true ∧
    eventType (some c6event) = EventCanceled :=
  ⟨rfl, rfl,
    (((((eventType_characterization (some c6event)).2 c6event rfl).2
        ⟨some (.wrap .canceled)⟩ rfl).2 (.wrap .canceled) rfl).1 rfl)⟩

/-- **C7.** (Modelled from the spec: the marshalling code is not under
`src`, only its unit test.)  The JSON representation of an `EventType`
is the quoted lowercase type name, and `"invalid"` for any out-of-range
value. -/
theorem eventTypeMarshalJSON_characterization (t : EventType) :
    (t = EventNil → eventTypeMarshalJSON t = "\"nil\"") ∧
    (t = EventStart → eventTypeMarshalJSON t = "\"start\"") ∧
    (t = EventSuccess → eventTypeMarshalJSON t = "\"success\"") ∧
    (t = EventError → eventTypeMarshalJSON t = "\"error\"") ∧
    (t = EventCanceled → eventTypeMarshalJSON t = "\"canceled\"") ∧
    (t < EventNil ∨ EventCanceled < t → eventTypeMarshalJSON t = "\"invalid\"") := by
  refine ⟨?_, ?_, ?_, ?_, ?_, ?_⟩ <;> intro h
  · subst h; rfl
  · subst h; rfl
  · subst h; rfl
  · subst h; rfl
  · subst h; rfl
  · have hc : t < EventNil ∨ t > EventCanceled := h
    simp only [eventTypeMarshalJSON, if_pos hc]
    rfl

/-- Witness for C7: the five in-range values and two out-of-range
values (the unit test's cases). -/
theorem eventTypeMarshalJSON_characterization_witness :
    eventTypeMarshalJSON EventNil = "\"nil\"" ∧
    eventTypeMarshalJSON EventStart = "\"start\"" ∧
    eventTypeMarshalJSON EventSuccess = "\"success\"" ∧
    eventTypeMarshalJSON EventError = "\"error\"" ∧
    eventTypeMarshalJSON EventCanceled = "\"canceled\"" ∧
    eventTypeMarshalJSON (-1) = "\"invalid\"" ∧
    eventTypeMarshalJSON 100 = "\"invalid\"" :=
  ⟨(eventTypeMarshalJSON_characterization EventNil).1 rfl,
   (eventTypeMarshalJSON_characterization EventStart).2.1 rfl,
   (eventTypeMarshalJSON_characterization EventSuccess).2.2.1 rfl,
   (eventTypeMarshalJSON_characterization EventError).2.2.2.1 rfl,
   (eventTypeMarshalJSON_characterization EventCanceled).2.2.2.2.1 rfl,
   (eventTypeMarshalJSON_characterization (-1)).2.2.2.2.2 (Or.inl (by decide)),
   (eventTypeMarshalJSON_characterization 100).2.2.2.2.2 (Or.inr (by decide))⟩

/-! ## Remove-at-index (C8) -/

/-- Removing index `i` yields a permutation: the removed element
consed onto the shrunken list is a rearrangement of the original. -/
lemma tasksRemove_perm {τ : Type} (ts : List τ) (i : Nat) (h : i < ts.length) :
    (ts.get ⟨i, h⟩ ::
      (ts.set i (ts.get ⟨ts.length - 1, by omega⟩)).take (ts.length - 1)).Perm ts := by
  have hn : ts.length - 1 < ts.length := by omega
  rw [List.set_eq_take_cons_drop _ h]
  rw [List.take_append_eq_append_take]
  have hlenA : (ts.take i).length = i := by
    simp
    omega
  rw [hlenA]
  have h1 : (ts.take i).take (ts.length - 1) = ts.take i := by
    rw [List.take_take]
    congr 1
    omega
  rw [h1]
  by_cases hlast : i = ts.length - 1
  · -- removing the last position: the tail contribution vanishes
    have h0 : ts.length - 1 - i = 0 := by omega
    rw [h0, List.take_zero, List.append_nil]
    have hts : ts = ts.take i ++ [ts.get ⟨i, h⟩] := by
      conv_lhs => rw [← List.take_append_drop i ts]
      congr 1
      rw [List.drop_eq_getElem_cons h]
      have hdrop : ts.drop (i + 1) = [] := List.drop_eq_nil_of_le (by omega)
      rw [hdrop]
      simp [List.get_eq_getElem]
    conv_rhs => rw [hts]
    exact (List.perm_append_singleton _ _).symm
  · -- removing an interior position
    obtain ⟨k, hk⟩ : ∃ k, ts.length - 1 - i = k + 1 := ⟨ts.length - 2 - i, by omega⟩
    rw [hk, List.take_succ_cons]
    have hBlen : (ts.drop (i + 1)).length = ts.length - (i + 1) := by simp
    have hkB : k = (ts.drop (i + 1)).length - 1 := by omega
    rw [hkB, ← List.dropLast_eq_take]
    have hBne : ts.drop (i + 1) ≠ [] := by
      intro hc
      have := congrArg List.length hc
      simp at this
      omega
    have hlastB : (ts.drop (i + 1)).getLast hBne = ts.get ⟨ts.length - 1, hn⟩ := by
      rw [List.getLast_eq_get]
      simp only [List.get_eq_getElem, List.getElem_drop, List.length_drop]
      congr 1
      omega
    have hB : ts.drop (i + 1) =
        (ts.drop (i + 1)).dropLast ++ [ts.get ⟨ts.length - 1, hn⟩] := by
      conv_lhs => rw [← List.dropLast_append_getLast hBne]
      rw [hlastB]
    have hts : ts = ts.take i ++ ts.get ⟨i, h⟩ :: ts.drop (i + 1) := by
      conv_lhs => rw [← List.take_append_drop i ts]
      congr 1
      rw [List.drop_eq_getElem_cons h]
      simp [List.get_eq_getElem]
    conv_rhs => rw [hts, hB]
    refine List.Perm.trans List.perm_middle.symm ?_
    exact List.Perm.append_left _ (List.Perm.cons _
      (List.perm_append_singleton _ _).symm)

/-- **C8.** For `i < length ts`, `remove` returns the element at `i`;
the remaining list is the original with position `i` overwritten by the
original last element and the last position truncated, so its length is
one less and, as a multiset, it is the original minus one occurrence of
the removed element.  Order is not preserved (see the witness, where
removing index 0 of `[a, b, c]` leaves `[c, b]`, not `[b, c]`). -/
theorem tasksRemove_spec {τ : Type} (ts : List τ) (i : Nat) (h : i < ts.length) :
    tasksRemove ts i =
      some (ts.get ⟨i, h⟩,
        (ts.set i (ts.get ⟨ts.length - 1, by omega⟩)).take (ts.length - 1)) ∧
    ((ts.set i (ts.get ⟨ts.length - 1, by omega⟩)).take (ts.length - 1)).length =
      ts.length - 1 ∧
    (ts.get ⟨i, h⟩ ::
      (ts.set i (ts.get ⟨ts.length - 1, by omega⟩)).take (ts.length - 1)).Perm ts := by
  refine ⟨by simp [tasksRemove, h], ?_, tasksRemove_perm ts i h⟩
  simp only [List.length_take, List.length_set]
  omega

/-- Witness for C8: removing index 0 of `["a", "b", "c"]` returns `"a"`
and leaves `["c", "b"]` — one element shorter, a permutation of the
rest, and not in the original order. -/
theorem tasksRemove_spec_witness :
    tasksRemove (["a", "b", "c"] : List String) 0 = some ("a", ["c", "b"]) ∧
    (["c", "b"] : List String).length = (["a", "b", "c"] : List String).length - 1 ∧
    (("a" :: ["c", "b"] : List String)).Perm ["a", "b", "c"] :=
  tasksRemove_spec (["a", "b", "c"] : List String) 0 (by decide)


/-! ## Mode FirstSuccessOrLastResult retains exactly one event (C2) -/

/-- The retention predicate on a completion event in terms of the
snapshot and the result's error. -/
lemma isFSLR_doneEvent (wid : WorkerID) (tid : TaskID) (err : Option GoError)
    (s : TaskStat) :
    isFSLR (doneEvent wid tid err s) =
      match err with
      | none => s.success == 1
      | some _ => s.todo == 0 && s.doing == 0 && s.success == 0 := by
  cases err <;> rfl

/-- Once the task has a success, no later terminal event is retained:
a later success sees `success ≥ 2`, a later failure sees
`success ≥ 1`. -/
lemma countFSLR_zero_of_success (wid : WorkerID) (tid : TaskID) :
    ∀ (ops : List TaskRunOp) (s : TaskStat), 1 ≤ s.success →
      (taskRunEvents wid tid s ops).countP isFSLR = 0 := by
  intro ops
  induction ops with
  | nil => intro s _; rfl
  | cons op rest ih =>
    intro s hs
    cases op with
    | doing =>
      simp only [taskRunEvents]
      exact ih s.applyDoing hs
    | done err =>
      simp only [taskRunEvents, List.countP_cons]
      rw [ih (s.applyDone err.isNone)
        (by cases err <;> simp [TaskStat.applyDone] <;> omega)]
      have hfalse : isFSLR (doneEvent wid tid err (s.applyDone err.isNone)) = false := by
        rw [isFSLR_doneEvent]
        cases err with
        | none =>
          simp [TaskStat.applyDone]
          omega
        | some e =>
          simp [TaskStat.applyDone]
          omega
      rw [hfalse]
      simp

/-- A completed task admits no further lifecycle steps. -/
lemma validCompletedRun_nil (s : TaskStat) (ops : List TaskRunOp)
    (h : validCompletedRun s ops = true) (ht : s.todo = 0) (hd : s.doing = 0) :
    ops = [] := by
  cases ops with
  | nil => rfl
  | cons op rest =>
    cases op <;> simp [validCompletedRun, ht, hd] at h

/-- In a complete guarded run of a not-yet-completed task with no
success so far, exactly one terminal event is retained. -/
lemma countFSLR_one (wid : WorkerID) (tid : TaskID) :
    ∀ (ops : List TaskRunOp) (s : TaskStat), s.success = 0 → 0 ≤ s.todo →
      0 ≤ s.doing → 0 < s.todo + s.doing → validCompletedRun s ops = true →
      (taskRunEvents wid tid s ops).countP isFSLR = 1 := by
  intro ops
  induction ops with
  | nil =>
    intro s hs ht hd hsum hv
    exfalso
    simp [validCompletedRun] at hv
    omega
  | cons op rest ih =>
    intro s hs ht hd hsum hv
    cases op with
    | doing =>
      simp only [validCompletedRun, Bool.and_eq_true, decide_eq_true_eq] at hv
      obtain ⟨hg, hv'⟩ := hv
      simp only [taskRunEvents]
      refine ih s.applyDoing ?_ ?_ ?_ ?_ hv' <;>
        simp [TaskStat.applyDoing, hs] <;> omega
    | done err =>
      simp only [validCompletedRun, Bool.and_eq_true, decide_eq_true_eq] at hv
      obtain ⟨hg, hv'⟩ := hv
      simp only [taskRunEvents, List.countP_cons]
      cases err with
      | none =>
        rw [countFSLR_zero_of_success wid tid rest
          (s.applyDone (none : Option GoError).isNone)
          (by simp [TaskStat.applyDone, hs])]
        have htrue : isFSLR (doneEvent wid tid none
            (s.applyDone (none : Option GoError).isNone)) = true := by
          rw [isFSLR_doneEvent]
          simp [TaskStat.applyDone, hs]
        rw [htrue]
        simp
      | some e =>
        by_cases hzero : s.todo + (s.doing - 1) = 0
        · have ht0 : s.todo = 0 := by omega
          have hd0 : s.doing - 1 = 0 := by omega
          have hrest : rest = [] :=
            validCompletedRun_nil _ rest hv'
              (by simp [TaskStat.applyDone]; omega)
              (by simp [TaskStat.applyDone]; omega)
          subst hrest
          have htrue : isFSLR (doneEvent wid tid (some e)
              (s.applyDone (some e : Option GoError).isNone)) = true := by
            rw [isFSLR_doneEvent]
            simp [TaskStat.applyDone, ht0, hd0, hs]
          rw [htrue]
          simp [taskRunEvents]
        · rw [ih (s.applyDone (some e : Option GoError).isNone)
            (by simp [TaskStat.applyDone, hs])
            (by simp [TaskStat.applyDone]; omega)
            (by simp [TaskStat.applyDone]; omega)
            (by simp [TaskStat.applyDone]; omega) hv']
          have hfalse : isFSLR (doneEvent wid tid (some e)
              (s.applyDone (some e : Option GoError).isNone)) = false := by
            rw [isFSLR_doneEvent]
            simp [TaskStat.applyDone]
            omega
          rw [hfalse]
          simp

/-- The success counter after a prefix of lifecycle steps equals the
number of successful completions in the prefix. -/
lemma runTaskStat_success (pre : List TaskRunOp) :
    ∀ s : TaskStat, (runTaskStat s pre).success =
      s.success + (pre.countP fun op => decide (op = TaskRunOp.done none)) := by
  induction pre with
  | nil => intro s; simp [runTaskStat]
  | cons op rest ih =>
    intro s
    cases op with
    | doing =>
      rw [runTaskStat, ih]
      simp [TaskStat.applyDoing, List.countP_cons]
    | done err =>
      rw [runTaskStat, ih]
      cases err <;> simp [TaskStat.applyDone, List.countP_cons] <;> omega

/-- In a complete guarded run with no successful completion anywhere,
the retained event is the last one emitted. -/
lemma lastMarked (wid : WorkerID) (tid : TaskID) :
    ∀ (ops : List TaskRunOp) (s : TaskStat),
      validCompletedRun s ops = true → 0 ≤ s.todo → 0 ≤ s.doing →
      0 < s.todo + s.doing → s.success = 0 → TaskRunOp.done none ∉ ops →
      ∃ e init, taskRunEvents wid tid s ops = init ++ [e] ∧ isFSLR e = true := by
  intro ops
  induction ops with
  | nil =>
    intro s hv ht hd hsum _ _
    exfalso
    simp [validCompletedRun] at hv
    omega
  | cons op rest ih =>
    intro s hv ht hd hsum hs hmem
    have hmem' : TaskRunOp.done none ∉ rest := fun hc => hmem (List.mem_cons_of_mem _ hc)
    cases op with
    | doing =>
      simp only [validCompletedRun, Bool.and_eq_true, decide_eq_true_eq] at hv
      obtain ⟨hg, hv'⟩ := hv
      simp only [taskRunEvents]
      refine ih s.applyDoing hv' ?_ ?_ ?_ ?_ hmem' <;>
        simp [TaskStat.applyDoing, hs] <;> omega
    | done err =>
      have herr : err ≠ none := by
        intro hc
        subst hc
        exact hmem (List.mem_cons_self _ _)
      obtain ⟨e', rfl⟩ : ∃ e', err = some e' := by
        cases err with
        | none => exact absurd rfl herr
        | some e' => exact ⟨e', rfl⟩
      simp only [validCompletedRun, Bool.and_eq_true, decide_eq_true_eq] at hv
      obtain ⟨hg, hv'⟩ := hv
      simp only [taskRunEvents]
      by_cases hzero : s.todo + (s.doing - 1) = 0
      · have ht0 : s.todo = 0 := by omega
        have hd0 : s.doing - 1 = 0 := by omega
        have hrest : rest = [] :=
          validCompletedRun_nil _ rest hv'
            (by simp [TaskStat.applyDone]; omega)
            (by simp [TaskStat.applyDone]; omega)
        subst hrest
        refine ⟨doneEvent wid tid (some e')
            (s.applyDone (some e' : Option GoError).isNone), [], by
          simp [taskRunEvents], ?_⟩
        rw [isFSLR_doneEvent]
        simp [TaskStat.applyDone, ht0, hd0, hs]
      · obtain ⟨e, init, heq, hp⟩ := ih (s.applyDone (some e' : Option GoError).isNone)
          hv'
          (by simp [TaskStat.applyDone]; omega)
          (by simp [TaskStat.applyDone]; omega)
          (by simp [TaskStat.applyDone]; omega)
          (by simp [TaskStat.applyDone, hs]) hmem'
        refine ⟨e, doneEvent wid tid (some e')
            (s.applyDone (some e' : Option GoError).isNone) :: init, ?_, hp⟩
        rw [heq]
        simp

/-- **C2.** For every task with initial `todo = n ≥ 1` (at least one
attempt), over any complete guarded run — where each terminal event
carries the stat snapshot taken immediately after `statMap.done` for
that attempt, exactly as the main loop builds it — exactly one terminal
event satisfies `IsFirstSuccessOrLastResult`: the first successful
completion when one exists (second conjunct: the event of the first
success is retained), and otherwise the last event emitted (third
conjunct).  Hence mode `FirstSuccessOrLastResult` yields exactly one
result per attempted task. -/
theorem firstSuccessOrLastResult_exactly_one (n : Int) (wid : WorkerID)
    (tid : TaskID) (ops : List TaskRunOp) (hn : 1 ≤ n)
    (hrun : validCompletedRun ⟨n, 0, 0, 0⟩ ops = true) :
    (taskRunEvents wid tid ⟨n, 0, 0, 0⟩ ops).countP isFSLR = 1 ∧
    (∀ pre post, ops = pre ++ TaskRunOp.done none :: post →
      (pre.countP fun op => decide (op = TaskRunOp.done none)) = 0 →
      isFSLR (doneEvent wid tid none
        ((runTaskStat ⟨n, 0, 0, 0⟩ pre).applyDone true)) = true) ∧
    (TaskRunOp.done none ∉ ops →
      ∃ e init, taskRunEvents wid tid ⟨n, 0, 0, 0⟩ ops = init ++ [e] ∧
        isFSLR e = true) := by
  refine ⟨countFSLR_one wid tid ops ⟨n, 0, 0, 0⟩ rfl
      (show (0 : Int) ≤ n by omega) le_rfl (show (0 : Int) < n + 0 by omega) hrun,
    ?_, fun hmem => lastMarked wid tid ops ⟨n, 0, 0, 0⟩ hrun
      (show (0 : Int) ≤ n by omega) le_rfl (show (0 : Int) < n + 0 by omega) rfl hmem⟩
  intro pre post heq hcnt
  have hsucc : (runTaskStat ⟨n, 0, 0, 0⟩ pre).success = 0 := by
    rw [runTaskStat_success]
    simp [hcnt]
  rw [isFSLR_doneEvent]
  simp [TaskStat.applyDone, hsucc]

/-- Witness for C2: a task listed twice (`n = 2`); its first attempt
fails, its second succeeds; exactly one event is retained. -/
theorem firstSuccessOrLastResult_exactly_one_witness :
    (1 : Int) ≤ 2 ∧
    validCompletedRun ⟨2, 0, 0, 0⟩ c2ops = true ∧
    ((taskRunEvents "w1" "t1" ⟨2, 0, 0, 0⟩ c2ops).countP isFSLR = 1 ∧
    (∀ pre post, c2ops = pre ++ TaskRunOp.done none :: post →
      (pre.countP fun op => decide (op = TaskRunOp.done none)) = 0 →
      isFSLR (doneEvent "w1" "t1" none
        ((runTaskStat ⟨2, 0, 0, 0⟩ pre).applyDone true)) = true) ∧
    (TaskRunOp.done none ∉ c2ops →
      ∃ e init, taskRunEvents "w1" "t1" ⟨2, 0, 0, 0⟩ c2ops = init ++ [e] ∧
        isFSLR e = true)) :=
  ⟨by decide, by decide,
    firstSuccessOrLastResult_exactly_one 2 "w1" "t1" c2ops (by decide) (by decide)⟩


/-! ## Execute / ExecuteEvents preconditions (C9) -/

/-- **C9.** `ExecuteEvents` (and hence `Execute`) fails immediately —
the error branch, standing for "no channel created" — with message
exactly `"nil engine"` on a `nil` engine, even when the context is also
`nil` (the first conjunct covers every `ctx`, `none` included), and
with `"nil context"` on a `nil` parent context with a non-`nil`
engine; with both non-`nil` the precondition phase succeeds. -/
theorem executeEvents_nil_checks {τ : Type} :
    (∀ ctx : Option Unit,
      executeEventsChecked (τ := τ) none ctx = Except.error "nil engine") ∧
    (∀ eng : Engine τ,
      executeEventsChecked (some eng) none = Except.error "nil context") ∧
    (∀ eng : Engine τ, ∀ c : Unit,
      executeEventsChecked (some eng) (some c) = Except.ok ()) ∧
    (∀ ctx : Option Unit, ∀ mode : Mode,
      executeChecked (τ := τ) none ctx mode = Except.error "nil engine") ∧
    (∀ eng : Engine τ, ∀ mode : Mode,
      executeChecked (some eng) none mode = Except.error "nil context") :=
  ⟨fun _ => rfl, fun _ => rfl, fun _ _ => rfl, fun _ _ => rfl, fun _ _ => rfl⟩

/-! ## Engine construction (C4) -/

lemma aset_fresh {β : Type} (m : List (String × β)) (k : String) (v : β)
    (h : alookup m k = none) : aset m k v = m ++ [(k, v)] := by
  induction m with
  | nil => simp [aset]
  | cons p rest ih =>
    obtain ⟨k', w⟩ := p
    by_cases hk : k' = k
    · simp [alookup, hk] at h
    · simp only [alookup, if_neg hk] at h
      simp [aset, hk, ih h]

lemma alookup_entries_none_iff (ws : List Worker) (k : WorkerID) :
    alookup (ws.map fun w => (w.workerID, w)) k = none ↔
      k ∉ ws.map Worker.workerID := by
  induction ws with
  | nil => simp [alookup]
  | cons w rest ih =>
    by_cases hk : w.workerID = k
    · simp [alookup, hk]
    · simp only [List.map_cons, alookup, if_neg hk, ih, List.mem_cons]
      constructor
      · intro h hc
        rcases hc with hc | hc
        · exact hk hc.symm
        · exact h hc
      · intro h hc
        exact h (Or.inr hc)

lemma workerCheckError_eq_none_iff (m : List (WorkerID × Worker)) (w : Worker) :
    workerCheckError m w = none ↔
      (alookup m w.workerID = none ∧ 1 ≤ w.instances ∧
        w.instances ≤ maxInstances ∧ w.work ≠ none) := by
  unfold workerCheckError
  split_ifs with h1 h2 h3
  · simp only [Option.isSome_iff_exists] at h1
    obtain ⟨v, hv⟩ := h1
    simp [hv]
  · constructor
    · intro hc; cases hc
    · rintro ⟨-, hi1, hi2, -⟩
      omega
  · constructor
    · intro hc; cases hc
    · rintro ⟨-, -, -, hw⟩
      simp only [Option.isNone_iff_eq_none] at h3
      exact absurd h3 hw
  · simp only [Option.isSome_iff_exists] at h1
    push_neg at h1
    constructor
    · intro _
      refine ⟨?_, by omega, by omega, ?_⟩
      · cases halookup : alookup m w.workerID with
        | none => rfl
        | some v => exact absurd halookup (h1 v)
      · simp only [Option.isNone_iff_eq_none] at h3
        exact h3
    · intro _
      rfl

lemma buildWorkerMap_ok_iff :
    ∀ (ws : List Worker) (m0 : List (WorkerID × Worker)),
      (∃ m, buildWorkerMap ws m0 = Except.ok m) ↔
        ((ws.map Worker.workerID).Nodup ∧
         (∀ w ∈ ws, alookup m0 w.workerID = none) ∧
         (∀ w ∈ ws, 1 ≤ w.instances ∧ w.instances ≤ maxInstances ∧
           w.work ≠ none)) := by
  intro ws
  induction ws with
  | nil =>
    intro m0
    simp [buildWorkerMap]
  | cons w rest ih =>
    intro m0
    constructor
    · rintro ⟨m, hm⟩
      simp only [buildWorkerMap] at hm
      cases hwc : workerCheckError m0 w with
      | some e => rw [hwc] at hm; cases hm
      | none =>
        rw [hwc] at hm
        obtain ⟨hfresh, hi1, hi2, hwork⟩ := (workerCheckError_eq_none_iff m0 w).mp hwc
        obtain ⟨hnd, hfr, hvl⟩ := (ih _).mp ⟨m, hm⟩
        refine ⟨?_, ?_, ?_⟩
        · rw [List.map_cons, List.nodup_cons]
          refine ⟨?_, hnd⟩
          intro hmem
          obtain ⟨w', hw', hid⟩ := List.mem_map.mp hmem
          have hfr' := hfr w' hw'
          rw [hid, alookup_aset_self] at hfr'
          cases hfr'
        · intro w' hw'
          rcases List.mem_cons.mp hw' with rfl | hw'
          · exact hfresh
          · have hfr' := hfr w' hw'
            by_cases hid : w'.workerID = w.workerID
            · rw [hid, alookup_aset_self] at hfr'
              cases hfr'
            · rw [alookup_aset_ne _ _ _ _ hid] at hfr'
              exact hfr'
        · intro w' hw'
          rcases List.mem_cons.mp hw' with rfl | hw'
          · exact ⟨hi1, hi2, hwork⟩
          · exact hvl w' hw'
    · rintro ⟨hnd, hfr, hvl⟩
      rw [List.map_cons, List.nodup_cons] at hnd
      have hwc : workerCheckError m0 w = none := by
        rw [workerCheckError_eq_none_iff]
        exact ⟨hfr w (List.mem_cons_self _ _),
          (hvl w (List.mem_cons_self _ _)).1,
          (hvl w (List.mem_cons_self _ _)).2.1,
          (hvl w (List.mem_cons_self _ _)).2.2⟩
      simp only [buildWorkerMap, hwc]
      refine (ih _).mpr ⟨hnd.2, ?_, fun w' hw' => hvl w' (List.mem_cons_of_mem _ hw')⟩
      intro w' hw'
      have hne : w'.workerID ≠ w.workerID := by
        intro hc
        exact hnd.1 (List.mem_map.mpr ⟨w', hw', hc⟩)
      rw [alookup_aset_ne _ _ _ _ hne]
      exact hfr w' (List.mem_cons_of_mem _ hw')

lemma buildWorkerMap_ok_entries :
    ∀ (ws : List Worker) (m0 m : List (WorkerID × Worker)),
      buildWorkerMap ws m0 = Except.ok m →
      m = m0 ++ ws.map fun w => (w.workerID, w) := by
  intro ws
  induction ws with
  | nil =>
    intro m0 m hm
    simp only [buildWorkerMap] at hm
    cases hm
    simp
  | cons w rest ih =>
    intro m0 m hm
    simp only [buildWorkerMap] at hm
    cases hwc : workerCheckError m0 w with
    | some e => rw [hwc] at hm; cases hm
    | none =>
      rw [hwc] at hm
      obtain ⟨hfresh, -, -, -⟩ := (workerCheckError_eq_none_iff m0 w).mp hwc
      have hrec := ih _ _ hm
      rw [hrec, aset_fresh m0 _ _ hfresh]
      simp

lemma buildWorkerMap_append (l1 l2 : List Worker) (m0 : List (WorkerID × Worker)) :
    buildWorkerMap (l1 ++ l2) m0 =
      match buildWorkerMap l1 m0 with
      | .error e => .error e
      | .ok m => buildWorkerMap l2 m := by
  induction l1 generalizing m0 with
  | nil => simp [buildWorkerMap]
  | cons w rest ih =>
    simp only [List.cons_append, buildWorkerMap]
    cases workerCheckError m0 w with
    | some e => rfl
    | none => exact ih _

lemma checkWidTasks_ok_iff {τ : Type} (workers : List (WorkerID × Worker)) :
    ∀ wts : List (WorkerID × List τ),
      (∃ kept, checkWidTasks workers wts = Except.ok kept) ↔
        ∀ p ∈ wts, p.2 ≠ [] → alookup workers p.1 ≠ none := by
  intro wts
  induction wts with
  | nil => simp [checkWidTasks]
  | cons p rest ih =>
    obtain ⟨wid, ts⟩ := p
    by_cases hts : ts.length = 0
    · have hts' : ts = [] := List.length_eq_zero.mp hts
      subst hts'
      have hred : checkWidTasks workers ((wid, ([] : List τ)) :: rest) =
          checkWidTasks workers rest := by
        simp [checkWidTasks]
      rw [hred, ih]
      constructor
      · intro h q hq
        rcases List.mem_cons.mp hq with rfl | hq
        · intro hc; exact absurd rfl hc
        · exact h q hq
      · intro h q hq
        exact h q (List.mem_cons_of_mem _ hq)
    · simp only [checkWidTasks, if_neg hts]
      by_cases hlk : (alookup workers wid).isNone
      · rw [if_pos hlk]
        simp only [Option.isNone_iff_eq_none] at hlk
        constructor
        · rintro ⟨kept, hk⟩; cases hk
        · intro h
          exfalso
          exact h (wid, ts) (List.mem_cons_self _ _)
            (fun hc => hts (by rw [show ts = [] from hc]; rfl)) hlk
      · rw [if_neg hlk]
        simp only [Option.isNone_iff_eq_none] at hlk
        constructor
        · rintro ⟨kept, hk⟩
          cases hrec : checkWidTasks workers rest with
          | error e => rw [hrec] at hk; cases hk
          | ok kept' =>
            intro q hq
            rcases List.mem_cons.mp hq with rfl | hq
            · intro _; exact hlk
            · exact (ih.mp ⟨kept', hrec⟩) q hq
        · intro h
          obtain ⟨kept', hrec⟩ := ih.mpr fun q hq => h q (List.mem_cons_of_mem _ hq)
          exact ⟨(wid, ts) :: kept', by rw [hrec]⟩

lemma checkWidTasks_ok_filter {τ : Type} (workers : List (WorkerID × Worker)) :
    ∀ (wts kept : List (WorkerID × List τ)),
      checkWidTasks workers wts = Except.ok kept →
      kept = wts.filter fun p => !p.2.isEmpty := by
  intro wts
  induction wts with
  | nil =>
    intro kept hk
    simp only [checkWidTasks] at hk
    cases hk
    rfl
  | cons p rest ih =>
    intro kept hk
    obtain ⟨wid, ts⟩ := p
    by_cases hts : ts.length = 0
    · have hts' : ts = [] := List.length_eq_zero.mp hts
      subst hts'
      have hred : checkWidTasks workers ((wid, ([] : List τ)) :: rest) =
          checkWidTasks workers rest := by
        simp [checkWidTasks]
      rw [hred] at hk
      rw [ih kept hk]
      simp [List.filter]
    · simp only [checkWidTasks, if_neg hts] at hk
      by_cases hlk : (alookup workers wid).isNone
      · rw [if_pos hlk] at hk; cases hk
      · rw [if_neg hlk] at hk
        cases hrec : checkWidTasks workers rest with
        | error e => rw [hrec] at hk; cases hk
        | ok kept' =>
          rw [hrec] at hk
          cases hk
          have hne : (!ts.isEmpty) = true := by
            simp [List.isEmpty_iff]
            exact fun hc => hts (by rw [hc]; rfl)
          simp [List.filter, hne, ih kept' hrec]

lemma NewEngine_ok_iff {τ : Type} (ws : List Worker)
    (wts : List (WorkerID × List τ)) :
    (∃ eng, NewEngine ws wts = Except.ok eng) ↔
      ((ws.map Worker.workerID).Nodup ∧
       (∀ w ∈ ws, 1 ≤ w.instances ∧ w.instances ≤ maxInstances ∧
         w.work ≠ none) ∧
       (∀ p ∈ wts, p.2 ≠ [] → p.1 ∈ ws.map Worker.workerID)) := by
  constructor
  · rintro ⟨eng, heng⟩
    simp only [NewEngine] at heng
    cases hbm : buildWorkerMap ws [] with
    | error e => simp [hbm] at heng
    | ok m =>
      simp only [hbm] at heng
      cases hct : checkWidTasks m wts with
      | error e => simp [hct] at heng
      | ok kept =>
        obtain ⟨hnd, -, hvl⟩ := (buildWorkerMap_ok_iff ws []).mp ⟨m, hbm⟩
        have hment := buildWorkerMap_ok_entries ws [] m hbm
        simp only [List.nil_append] at hment
        refine ⟨hnd, hvl, ?_⟩
        intro p hp hne
        have hknown := (checkWidTasks_ok_iff m wts).mp ⟨kept, hct⟩ p hp hne
        by_contra hmem
        apply hknown
        rw [hment]
        exact (alookup_entries_none_iff ws p.1).mpr hmem
  · rintro ⟨hnd, hvl, htask⟩
    obtain ⟨m, hbm⟩ := (buildWorkerMap_ok_iff ws []).mpr ⟨hnd, fun w _ => rfl, hvl⟩
    have hment := buildWorkerMap_ok_entries ws [] m hbm
    simp only [List.nil_append] at hment
    have hforall : ∀ p ∈ wts, p.2 ≠ [] → alookup m p.1 ≠ none := by
      intro p hp hne hcnone
      rw [hment] at hcnone
      exact (alookup_entries_none_iff ws p.1).mp hcnone (htask p hp hne)
    obtain ⟨kept, hct⟩ := (checkWidTasks_ok_iff m wts).mpr hforall
    exact ⟨⟨m, kept, ws⟩, by simp [NewEngine, hbm, hct]⟩

lemma except_error_or_ok {γ : Type} (x : Except String γ) :
    (∃ e, x = Except.error e) ∨ (∃ a, x = Except.ok a) := by
  cases x with
  | error e => exact Or.inl ⟨e, rfl⟩
  | ok a => exact Or.inr ⟨a, rfl⟩


/-- **C4.** `NewEngine(workers, workerTasks)` returns an error iff the
worker sequence has a duplicate `WorkerID`, or some worker's
`Instances` is `< 1` or `> 100`, or some work function is `nil`, or
the mapping has a non-empty task list for a `WorkerID` not in the
worker sequence (first conjunct); on success the retained mapping is
the input minus every zero-length entry — entries for unknown workers
included (second conjunct); worker validation proceeds in declaration
order and stops at the first failing worker, whose error is returned
whatever workers or task mappings follow (third conjunct). -/
theorem NewEngine_validation {τ : Type} (ws : List Worker)
    (wts : List (WorkerID × List τ)) :
    ((∃ e, NewEngine ws wts = Except.error e) ↔
      (¬ (ws.map Worker.workerID).Nodup ∨
       (∃ w ∈ ws, w.instances < 1 ∨ maxInstances < w.instances ∨
         w.work = none) ∨
       (∃ p ∈ wts, p.2 ≠ [] ∧ p.1 ∉ ws.map Worker.workerID))) ∧
    (∀ eng, NewEngine ws wts = Except.ok eng →
      eng.widtasks = wts.filter (fun p => !p.2.isEmpty) ∧
      eng.workersList = ws ∧
      eng.workers = ws.map fun w => (w.workerID, w)) ∧
    (∀ ws1 w ws2 m e, ws = ws1 ++ w :: ws2 →
      buildWorkerMap ws1 [] = Except.ok m →
      workerCheckError m w = some e →
      NewEngine ws wts = Except.error e) := by
  have hiff := NewEngine_ok_iff ws wts
  have hB : (¬ ∀ w ∈ ws, 1 ≤ w.instances ∧ w.instances ≤ maxInstances ∧
        w.work ≠ none) ↔
      (∃ w ∈ ws, w.instances < 1 ∨ maxInstances < w.instances ∨
        w.work = none) := by
    push_neg
    constructor
    · rintro ⟨w, hw, hcond⟩
      refine ⟨w, hw, ?_⟩
      by_cases h1 : 1 ≤ w.instances
      · by_cases h2 : w.instances ≤ maxInstances
        · exact Or.inr (Or.inr (hcond h1 h2))
        · exact Or.inr (Or.inl (by omega))
      · exact Or.inl (by omega)
    · rintro ⟨w, hw, hcase⟩
      refine ⟨w, hw, ?_⟩
      intro h1 h2
      rcases hcase with h | h | h
      · omega
      · omega
      · exact h
  have hC : (¬ ∀ p ∈ wts, p.2 ≠ [] → p.1 ∈ ws.map Worker.workerID) ↔
      (∃ p ∈ wts, p.2 ≠ [] ∧ p.1 ∉ ws.map Worker.workerID) := by
    push_neg
    exact Iff.rfl
  refine ⟨?_, ?_, ?_⟩
  · constructor
    · rintro ⟨e, he⟩
      have hnok : ¬ ((ws.map Worker.workerID).Nodup ∧
          (∀ w ∈ ws, 1 ≤ w.instances ∧ w.instances ≤ maxInstances ∧
            w.work ≠ none) ∧
          (∀ p ∈ wts, p.2 ≠ [] → p.1 ∈ ws.map Worker.workerID)) := by
        intro hc
        obtain ⟨eng, hok⟩ := hiff.mpr hc
        rw [he] at hok
        cases hok
      by_cases hA : (ws.map Worker.workerID).Nodup
      · by_cases hBp : ∀ w ∈ ws, 1 ≤ w.instances ∧
            w.instances ≤ maxInstances ∧ w.work ≠ none
        · exact Or.inr (Or.inr (hC.mp fun hCC => hnok ⟨hA, hBp, hCC⟩))
        · exact Or.inr (Or.inl (hB.mp hBp))
      · exact Or.inl hA
    · intro h
      rcases except_error_or_ok (NewEngine ws wts) with he | ⟨eng, hok⟩
      · exact he
      · exfalso
        obtain ⟨hA, hBp, hCC⟩ := hiff.mp ⟨eng, hok⟩
        rcases h with h | h | h
        · exact h hA
        · exact hB.mpr h hBp
        · exact hC.mpr h hCC
  · intro eng heng
    simp only [NewEngine] at heng
    cases hbm : buildWorkerMap ws [] with
    | error e => simp [hbm] at heng
    | ok m =>
      simp only [hbm] at heng
      cases hct : checkWidTasks m wts with
      | error e => simp [hct] at heng
      | ok kept =>
        simp only [hct] at heng
        cases heng
        refine ⟨checkWidTasks_ok_filter m wts kept hct, rfl, ?_⟩
        have := buildWorkerMap_ok_entries ws [] m hbm
        simpa using this
  · intro ws1 w ws2 m e heq hbm1 hwc
    subst heq
    simp only [NewEngine, buildWorkerMap_append, hbm1]
    simp only [buildWorkerMap, hwc]

/-- Witness for C4: declaration-order first failure — `w2` with zero
instances is rejected with its exact message even though a task mapping
for an unknown worker also exists; and on the valid sub-input the
zero-length entry for the unknown `w3` is dropped from the retained
mapping. -/
theorem NewEngine_validation_witness :
    NewEngine c4workers c4widtasks =
      Except.error "instances must be in 1..100 range: WorkerID=\"w2\"" ∧
    ((⟨[("w1", ⟨"w1", 1, some ()⟩)], [("w1", ["t1"])],
        [⟨"w1", 1, some ()⟩]⟩ : Engine String).widtasks =
      c4widtasks.filter (fun p => !p.2.isEmpty)) :=
  ⟨(NewEngine_validation c4workers c4widtasks).2.2
      [⟨"w1", 1, some ()⟩] ⟨"w2", 0, some ()⟩ []
      [("w1", ⟨"w1", 1, some ()⟩)]
      "instances must be in 1..100 range: WorkerID=\"w2\""
      rfl rfl (by decide),
    ((NewEngine_validation [⟨"w1", 1, some ()⟩] c4widtasks).2.1
      ⟨[("w1", ⟨"w1", 1, some ()⟩)], [("w1", ["t1"])], [⟨"w1", 1, some ()⟩]⟩
      rfl).1⟩

/-! ## The Success-handling iteration of the main loop (C3) -/

/-- Decomposition of one main-loop iteration on a successful
completion: the action list starts with `statMap.done`, then the
cancellation of the task's scope, then the emission of the Success
event; whatever the select-and-dispatch phase adds emits nothing. -/
lemma mainStep_success_decomp {τ : Type} (taskID : τ → TaskID)
    (s : LoopState τ) (o : JobOutput τ) (r : GoResult)
    (hres : o.res = some r) (hsucc : r.error = none) :
    ∃ tailActs, (mainStep taskID s o).2 =
      LoopAction.statDone (taskID o.task) true ::
        LoopAction.cancelTask (taskID o.task) ::
        LoopAction.emit (loopEndEvent o r
          (tsmGet (tsmDone s.statMap (taskID o.task) true) (taskID o.task))) ::
        tailActs ∧
      ∀ a ∈ tailActs, ∀ e', a ≠ LoopAction.emit e' := by
  have hp : handleResult taskID s o =
      ({ s with statMap := tsmDone s.statMap (taskID o.task) true },
        [LoopAction.statDone (taskID o.task) true,
         LoopAction.cancelTask (taskID o.task),
         LoopAction.emit (loopEndEvent o r
           (tsmGet (tsmDone s.statMap (taskID o.task) true) (taskID o.task)))]) := by
    simp [handleResult, hres, hsucc]
  rcases hsel : selectNext taskID (handleResult taskID s o).1 o.wid with ⟨nt, s2⟩
  simp only [hp] at hsel
  cases nt with
  | none =>
    by_cases hopen : o.wid ∈ s2.openChans
    · refine ⟨[LoopAction.closeChan o.wid], ?_, ?_⟩
      · simp [mainStep, hsel, hp, hopen]
      · intro a ha e'
        simp only [List.mem_singleton] at ha
        subst ha
        intro hc
        cases hc
    · refine ⟨[], ?_, ?_⟩
      · simp [mainStep, hsel, hp, hopen]
      · intro a ha
        simp at ha
  | some t =>
    refine ⟨[LoopAction.statDoing (taskID t), LoopAction.dispatch o.wid (taskID t)],
      ?_, ?_⟩
    · simp [mainStep, hsel, hp]
    · intro a ha e'
      rcases List.mem_cons.mp ha with rfl | ha
      · intro hc; cases hc
      · simp only [List.mem_singleton] at ha
        subst ha
        intro hc
        cases hc

/-- **C3.** When the main loop processes a completion whose result has
a `nil` error — the task's Success — it performs, in its program
order: the `statMap.done` update, then the cancellation of the task's
per-`TaskID` scope (`taskcancel[tid]()`, which cancels every
still-in-flight attempt of the task, since they all share that scope),
and only then the emission of the Success terminal event.  The rest of
the iteration emits nothing, so every event of a later-processed
completion of the same task — its `Canceled` attempts included —
occurs strictly after the Success in the loop's action order: the
first Success causally precedes those `Canceled` events. -/
theorem success_cancels_before_emit {τ : Type} (taskID : τ → TaskID)
    (s : LoopState τ) (o : JobOutput τ) (post : List (JobOutput τ))
    (r : GoResult) (hrun : tsmCompleted s.statMap = false)
    (hres : o.res = some r) (hsucc : r.error = none) :
    ∃ (ev : Event τ) (tailActs : List (LoopAction τ)) (s' : LoopState τ),
      mainLoopRun taskID s (o :: post) =
        LoopAction.statDone (taskID o.task) true ::
          LoopAction.cancelTask (taskID o.task) ::
          LoopAction.emit ev :: (tailActs ++ mainLoopRun taskID s' post) ∧
      ev.result = some r ∧
      eventType (some ev) = EventSuccess ∧
      ev.stat = tsmGet (tsmDone s.statMap (taskID o.task) true)
        (taskID o.task) ∧
      (∀ a ∈ tailActs, ∀ e', a ≠ LoopAction.emit e') := by
  obtain ⟨tailActs, hstep, hnoemit⟩ :=
    mainStep_success_decomp taskID s o r hres hsucc
  refine ⟨loopEndEvent o r
      (tsmGet (tsmDone s.statMap (taskID o.task) true) (taskID o.task)),
    tailActs, (mainStep taskID s o).1, ?_, rfl, ?_, rfl, hnoemit⟩
  · simp only [mainLoopRun, hrun, Bool.false_eq_true, if_false]
    rw [hstep]
    simp
  · simp [eventType, loopEndEvent, hsucc]

/-- Witness for C3: one worker `w1` with an in-flight attempt of `t1`
completing successfully while the loop is still running. -/
theorem success_cancels_before_emit_witness :
    tsmCompleted c3state.statMap = false ∧
    c3output.res = some ⟨none⟩ ∧
    (⟨none⟩ : GoResult).error = none ∧
    (∃ (ev : Event String) (tailActs : List (LoopAction String))
        (s' : LoopState String),
      mainLoopRun id c3state [c3output] =
        LoopAction.statDone (id c3output.task) true ::
          LoopAction.cancelTask (id c3output.task) ::
          LoopAction.emit ev :: (tailActs ++ mainLoopRun id s' []) ∧
      ev.result = some ⟨none⟩ ∧
      eventType (some ev) = EventSuccess ∧
      ev.stat = tsmGet (tsmDone c3state.statMap (id c3output.task) true)
        (id c3output.task) ∧
      (∀ a ∈ tailActs, ∀ e', a ≠ LoopAction.emit e')) :=
  ⟨by decide, rfl, rfl,
    success_cancels_before_emit id c3state c3output [] ⟨none⟩
      (by decide) rfl rfl⟩

end Taskengine
